import Mathlib

/-!
Verification development for the kiwi-cook/ingredient-parser repository.

The core under verification is the post-processing fallback pattern matcher
(`PostProcessor._fallback_pattern`): it takes parallel sequences of tokens,
labels and confidence scores, plus a set of indices to skip, and assembles
them into `IngredientAmount` groups.  The implementation module itself is not
part of the provided sources (only its test suite,
tests/postprocess/test_fallback_pattern.py, is), so the matcher is modelled
from the specification and validated against every concrete fixture of that
test suite.  The training utilities (`evaluate`, `select_preprocessor`) are
embedded directly from train/training_utils.py.

Python floats are modelled as rationals (ℚ): the only operations performed on
scores are comparisons, minima and one exact division, none of which involve
rounding for the inputs considered.
-/

namespace IngredientParser

/-- Token role labels produced by the upstream sequence labeler
(spec section 3, glossary). -/
inductive Label where
  | QTY
  | UNIT
  | NAME
  | COMMENT
  | COMMA
  | PUNC
  | SIZE
  | PURPOSE
  | PREP
deriving DecidableEq, Repr

/-- Modelled from the spec: the output record of the matcher
(`IngredientAmount` in the test suite, `AmountGroup` in the spec), holding the
joined quantity string, the joined pluralization-normalized unit string, the
aggregate confidence and the two flags. -/
structure IngredientAmount where
  quantity : String
  unit : String
  confidence : ℚ
  APPROXIMATE : Bool := false
  SINGULAR : Bool := false
deriving DecidableEq, Repr

/-- Modelled from the spec: the in-progress amount record built while
scanning.  Besides the fields that end up in `IngredientAmount` it records the
constituent token indices, the parallel list of their confidence scores and
the index of the governing token (the leading QTY token, or the UNIT token
when no quantity exists). -/
structure PartialAmount where
  quantity : String
  unitToks : List String
  indices : List Nat
  confs : List ℚ
  APPROXIMATE : Bool
  SINGULAR : Bool
  startIndex : Nat
deriving DecidableEq, Repr

/-- Modelled from the spec: the fixed vocabulary of approximation markers
recognized in COMMENT tokens (spec step 5: "about", "approx", "~"). -/
def APPROXIMATE_TOKENS : List String := ["about", "approx", "~"]

/-- Modelled from the spec: the fixed vocabulary of singular markers
recognized in COMMENT tokens (spec step 6: COMMENT tokens meaning "each"). -/
def SINGULAR_TOKENS : List String := ["each"]

/-- Modelled from the spec: pluralization normalization for unit words.
The spec fixes "ounce" to "ounces", "cup" to "cups" and "handful" to
"handfuls"; further food-unit words follow the same table, every other word
is left unchanged. -/
def pluralise : String → String
  | "ounce" => "ounces"
  | "cup" => "cups"
  | "handful" => "handfuls"
  | "can" => "cans"
  | "bunch" => "bunches"
  | "clove" => "cloves"
  | u => u

/-- Index of the nearest token strictly before position `i` that is not in
the skip set (skipped tokens are invisible to every step of the scan,
spec edge-case policies). -/
def prevUnskipped (skip : List Nat) : Nat → Option Nat
  | 0 => none
  | i + 1 => if i ∈ skip then prevUnskipped skip i else some i

/-- Modelled from the spec: collect the run of COMMENT tokens immediately
preceding position `i` (not separated by a NAME or other non-COMMENT token,
skipped indices being invisible), together with whether the token just before
that run is a COMMA. -/
def commentRun (tokens : List String) (labels : List Label) (skip : List Nat) :
    Nat → List String × Bool
  | 0 => ([], false)
  | i + 1 =>
    if i ∈ skip then commentRun tokens labels skip i
    else if labels.getD i Label.PUNC = Label.COMMENT then
      let r := commentRun tokens labels skip i
      (tokens.getD i "" :: r.1, r.2)
    else if labels.getD i Label.PUNC = Label.COMMA then ([], true)
    else ([], false)

/-- Character-level lower-casing of a string (the behaviour of
`str.lower()`, written over the character list so that it evaluates by
kernel reduction). -/
def lowerStr (s : String) : String :=
  String.mk (s.data.map Char.toLower)

/-- Modelled from the spec (step 5): the group being built at position `i` is
approximate when the run of COMMENT tokens immediately preceding `i` contains
a recognized approximation marker. -/
def approxFlag (tokens : List String) (labels : List Label) (skip : List Nat)
    (i : Nat) : Bool :=
  ((commentRun tokens labels skip i).1.map lowerStr).any
    (fun t => APPROXIMATE_TOKENS.contains t)

/-- Modelled from the spec (step 6): the group being built at position `i` is
singular when a COMMA is followed by COMMENT tokens containing a recognized
singular marker ("each") immediately before `i`. -/
def singularFlag (tokens : List String) (labels : List Label) (skip : List Nat)
    (i : Nat) : Bool :=
  (commentRun tokens labels skip i).2 &&
    ((commentRun tokens labels skip i).1.map lowerStr).any
      (fun t => SINGULAR_TOKENS.contains t)

/-- Whether the nearest unskipped token before `i` carries the given label. -/
def prevLabelIs (labels : List Label) (skip : List Nat) (i : Nat)
    (lab : Label) : Bool :=
  match prevUnskipped skip i with
  | some j => labels.getD j Label.PUNC == lab
  | none => false

/-- Modelled from the spec (step 4): the index of a COMMA token immediately
preceding the UNIT token at `i`, if any, whose text is prepended to the unit
string. -/
def commaBeforeIdx (labels : List Label) (skip : List Nat) (i : Nat) :
    Option Nat :=
  match prevUnskipped skip i with
  | some j =>
    if labels.getD j Label.PUNC = Label.COMMA then some j else none
  | none => none

/-- Comma texts prepended to the unit span at position `i` (empty or a single
comma). -/
def commaTexts (labels : List Label) (skip : List Nat) (i : Nat) :
    List String :=
  match commaBeforeIdx labels skip i with
  | some _ => [","]
  | none => []

/-- Constituent indices contributed by a prepended comma at position `i`. -/
def commaIdxs (labels : List Label) (skip : List Nat) (i : Nat) : List Nat :=
  match commaBeforeIdx labels skip i with
  | some j => [j]
  | none => []

/-- Confidence scores contributed by a prepended comma at position `i`. -/
def commaConfs (labels : List Label) (scores : List ℚ) (skip : List Nat)
    (i : Nat) : List ℚ :=
  (commaIdxs labels skip i).map (fun j => scores.getD j 0)

/-- Modelled from the spec (step 2): the fresh amount opened by a QTY token
at position `i`, with the approximation/singular flags inferred from the
immediately preceding COMMENT run. -/
def newQtyAmount (tokens : List String) (labels : List Label)
    (scores : List ℚ) (skip : List Nat) (i : Nat) : PartialAmount :=
  { quantity := tokens.getD i ""
    unitToks := []
    indices := [i]
    confs := [scores.getD i 0]
    APPROXIMATE := approxFlag tokens labels skip i
    SINGULAR := singularFlag tokens labels skip i
    startIndex := i }

/-- Modelled from the spec (steps 1 to 7): one step of the left-to-right scan
at position `i`.  A skipped index is invisible.  A QTY token opens a new
amount, except that the compound word "dozen" directly following a QTY token
joins into the previous quantity string.  A UNIT token extends the most
recent amount (opening an empty-quantity amount when none exists), prepending
a comma when a COMMA token immediately precedes it, and merges the
approximation/singular flags read from the preceding COMMENT run.  Every
other label leaves the accumulator unchanged.  The accumulator holds the
amounts in reverse emission order (most recent first). -/
def scanStep (tokens : List String) (labels : List Label) (scores : List ℚ)
    (skip : List Nat) (acc : List PartialAmount) (i : Nat) :
    List PartialAmount :=
  if i ∈ skip then acc
  else if labels.getD i Label.PUNC = Label.QTY then
    if tokens.getD i "" = "dozen" ∧ prevLabelIs labels skip i Label.QTY = true
    then
      match acc with
      | a :: rest =>
        { a with
          quantity := a.quantity ++ " " ++ tokens.getD i ""
          indices := a.indices ++ [i]
          confs := a.confs ++ [scores.getD i 0] } :: rest
      | [] => [newQtyAmount tokens labels scores skip i]
    else newQtyAmount tokens labels scores skip i :: acc
  else if labels.getD i Label.PUNC = Label.UNIT then
    match acc with
    | a :: rest =>
      { a with
        unitToks := a.unitToks ++ commaTexts labels skip i ++ [tokens.getD i ""]
        indices := a.indices ++ commaIdxs labels skip i ++ [i]
        confs := a.confs ++ commaConfs labels scores skip i ++ [scores.getD i 0]
        APPROXIMATE := a.APPROXIMATE || approxFlag tokens labels skip i
        SINGULAR := a.SINGULAR || singularFlag tokens labels skip i } :: rest
    | [] =>
      [{ quantity := ""
         unitToks := commaTexts labels skip i ++ [tokens.getD i ""]
         indices := commaIdxs labels skip i ++ [i]
         confs := commaConfs labels scores skip i ++ [scores.getD i 0]
         APPROXIMATE := approxFlag tokens labels skip i
         SINGULAR := singularFlag tokens labels skip i
         startIndex := i }]
  else acc

/-- Fold the scan step over a list of positions. -/
def scanIndices (tokens : List String) (labels : List Label)
    (scores : List ℚ) (skip : List Nat) :
    List Nat → List PartialAmount → List PartialAmount
  | [], acc => acc
  | i :: rest, acc =>
    scanIndices tokens labels scores skip rest
      (scanStep tokens labels scores skip acc i)

/-- Modelled from the spec: the full left-to-right scan over all token
positions, returning the partial amounts in emission order. -/
def fallbackScan (tokens : List String) (labels : List Label)
    (scores : List ℚ) (skip : List Nat) : List PartialAmount :=
  (scanIndices tokens labels scores skip (List.range tokens.length) []).reverse

/-- Minimum of a list of rationals (0 for the empty list; every amount has at
least one constituent token, so the default is never used by the matcher). -/
def minList : List ℚ → ℚ
  | [] => 0
  | [c] => c
  | c :: cs => min c (minList cs)

/-- Modelled from the spec (steps 3 and 7): turn a finished partial amount
into the output record, joining the unit words with single spaces, applying
pluralization normalization when the quantity indicates a count greater than
one (quantity "1" and the empty quantity keep the singular form), and taking
the minimum of the constituent confidence scores. -/
def finalize (a : PartialAmount) : IngredientAmount :=
  { quantity := a.quantity
    unit := String.intercalate " "
      (if a.quantity = "1" ∨ a.quantity = "" then a.unitToks
       else a.unitToks.map pluralise)
    confidence := minList a.confs
    APPROXIMATE := a.APPROXIMATE
    SINGULAR := a.SINGULAR }

/-- Modelled from the spec: `PostProcessor._fallback_pattern`, the matcher
entry point.  `match(tokens, labels, scores, skip)` returns the ordered
sequence of amount groups. -/
def fallback_pattern (tokens : List String) (labels : List Label)
    (scores : List ℚ) (skip : List Nat) : List IngredientAmount :=
  (fallbackScan tokens labels scores skip).map finalize

/-- Modelled from the spec (failure semantics, spec sections 4.1 and 7): the
checked matcher entry point.  Malformed input — the three parallel sequences
not all of equal length, or a skip index outside the valid range of token
indices — is a contract violation reported immediately as an error; it is
never silently recovered into a (possibly incomplete) result. -/
def fallback_pattern_checked (tokens : List String) (labels : List Label)
    (scores : List ℚ) (skip : List Nat) :
    Except String (List IngredientAmount) :=
  if tokens.length = labels.length ∧ labels.length = scores.length ∧
      ∀ x ∈ skip, x < tokens.length then
    Except.ok (fallback_pattern tokens labels scores skip)
  else
    Except.error "contract violation: mismatched lengths or skip index out of range"

/-!
Embedding of train/training_utils.py (code present in src).
-/

/-- The count of test sentences whose predicted label sequence equals the
true label sequence, from `evaluate` (training_utils.py line 271):
`len([p for p, t in zip(predictions, truths) if p == t])`. -/
def correct_sentences (predictions truths : List (List String)) : Nat :=
  ((predictions.zip truths).filter (fun pt => decide (pt.1 = pt.2))).length

/-- The sentence-accuracy computation of `evaluate` (training_utils.py line
272): `correct_sentences / len(predictions)`.  The Python division raises
ZeroDivisionError when `len(predictions)` is zero, so the fallible division
is modelled with `Option`: `none` exactly when the divisor is zero. -/
def evaluate_sentence_accuracy (predictions truths : List (List String)) :
    Option ℚ :=
  if predictions.length = 0 then none
  else some ((correct_sentences predictions truths : ℚ) /
    (predictions.length : ℚ))

/-- The PreProcessor classes `select_preprocessor` can return.  Only the
English one exists in the match statement (training_utils.py lines 108-112). -/
inductive PreProcessorClass where
  | en
deriving DecidableEq, Repr

/-- `select_preprocessor` (training_utils.py lines 87-112): raises ValueError
when the language is not supported; otherwise a match statement with a single
case "en" returns the English PreProcessor class, and any other supported
language falls through the match and implicitly returns None.  The
`SUPPORTED_LANGUAGES` constant is imported from the ingredient_parser package
(not among the provided sources), so it is taken as a parameter. -/
def select_preprocessor (SUPPORTED_LANGUAGES : List String) (lang : String) :
    Except String (Option PreProcessorClass) :=
  if lang ∉ SUPPORTED_LANGUAGES then
    Except.error ("Unsupported language \"" ++ lang ++ "\"")
  else if lang = "en" then
    Except.ok (some PreProcessorClass.en)
  else
    Except.ok none

/-!
Helper lemmas about the scan primitives.
-/

/-- The previous unskipped index is strictly smaller than the position. -/
lemma prevUnskipped_lt (skip : List Nat) :
    ∀ i j, prevUnskipped skip i = some j → j < i
  | 0, j, h => by simp [prevUnskipped] at h
  | i + 1, j, h => by
    by_cases hs : i ∈ skip
    · have h' : prevUnskipped skip i = some j := by
        simpa [prevUnskipped, hs] using h
      exact Nat.lt_succ_of_lt (prevUnskipped_lt skip i j h')
    · have : i = j := by simpa [prevUnskipped, hs] using h
      omega

/-- The previous unskipped index is not in the skip set. -/
lemma prevUnskipped_not_mem (skip : List Nat) :
    ∀ i j, prevUnskipped skip i = some j → j ∉ skip
  | 0, j, h => by simp [prevUnskipped] at h
  | i + 1, j, h => by
    by_cases hs : i ∈ skip
    · exact prevUnskipped_not_mem skip i j (by simpa [prevUnskipped, hs] using h)
    · have : i = j := by simpa [prevUnskipped, hs] using h
      subst this
      exact hs

/-- The previous unskipped index is the largest unskipped index below the
position. -/
lemma le_prevUnskipped (skip : List Nat) :
    ∀ i j x, prevUnskipped skip i = some j → x ∉ skip → x < i → x ≤ j
  | 0, _, _, _, _, hx => by omega
  | i + 1, j, x, h, hxs, hx => by
    by_cases hs : i ∈ skip
    · have h' : prevUnskipped skip i = some j := by
        simpa [prevUnskipped, hs] using h
      have hne : x ≠ i := fun he => hxs (he ▸ hs)
      exact le_prevUnskipped skip i j x h' hxs (by omega)
    · have : i = j := by simpa [prevUnskipped, hs] using h
      omega

/-- Unfolding equation for `minList` on a list of length at least two. -/
lemma minList_cons (c d : ℚ) (cs : List ℚ) :
    minList (c :: d :: cs) = min c (minList (d :: cs)) := rfl

/-- The minimum of a nonempty list is one of its elements. -/
lemma minList_mem : ∀ l : List ℚ, l ≠ [] → minList l ∈ l
  | [c], _ => by simp [minList]
  | c :: d :: cs, _ => by
    have ih := minList_mem (d :: cs) (by simp)
    by_cases h : c ≤ minList (d :: cs)
    · rw [minList_cons, min_eq_left h]
      exact List.mem_cons_self c (d :: cs)
    · rw [minList_cons, min_eq_right (le_of_not_le h)]
      exact List.mem_cons_of_mem c ih

/-- The minimum of a list is a lower bound for its elements. -/
lemma minList_le : ∀ l : List ℚ, ∀ c ∈ l, minList l ≤ c
  | [], c, hc => by simp at hc
  | [d], c, hc => by
    simp only [List.mem_singleton] at hc
    subst hc
    exact le_of_eq rfl
  | d :: e :: cs, c, hc => by
    rcases List.mem_cons.mp hc with rfl | hc'
    · rw [minList_cons]
      exact min_le_left _ _
    · rw [minList_cons]
      exact le_trans (min_le_right _ _) (minList_le (e :: cs) c hc')

/-- When the nearest unskipped token before `i` is a COMMENT, the comment run
at `i` starts with that token's text and continues with the run before it. -/
lemma commentRun_of_comment (tokens : List String) (labels : List Label)
    (skip : List Nat) :
    ∀ i j, prevUnskipped skip i = some j →
      labels.getD j Label.PUNC = Label.COMMENT →
      commentRun tokens labels skip i =
        (tokens.getD j "" :: (commentRun tokens labels skip j).1,
         (commentRun tokens labels skip j).2)
  | 0, j, hp, _ => by simp [prevUnskipped] at hp
  | i + 1, j, hp, hc => by
    by_cases hs : i ∈ skip
    · have hp' : prevUnskipped skip i = some j := by
        simpa [prevUnskipped, hs] using hp
      have ih := commentRun_of_comment tokens labels skip i j hp' hc
      simpa [commentRun, hs] using ih
    · have hij : i = j := by simpa [prevUnskipped, hs] using hp
      subst hij
      simp only [commentRun]
      rw [if_neg hs, if_pos hc]

/-- Destructuring a successful comma lookup: the comma index is the previous
unskipped index and carries the COMMA label. -/
lemma commaBeforeIdx_spec (labels : List Label) (skip : List Nat) (i j : Nat)
    (hj : commaBeforeIdx labels skip i = some j) :
    prevUnskipped skip i = some j ∧
      labels.getD j Label.PUNC = Label.COMMA := by
  unfold commaBeforeIdx at hj
  split at hj
  case h_1 k hk =>
    split at hj
    case isTrue hc =>
      cases hj
      exact ⟨hk, hc⟩
    case isFalse hc => cases hj
  case h_2 hk => cases hj

/-- Rewriting lemmas for the comma-prefix helpers. -/
lemma commaIdxs_none (labels : List Label) (skip : List Nat) (i : Nat)
    (hc : commaBeforeIdx labels skip i = none) :
    commaIdxs labels skip i = [] := by
  unfold commaIdxs
  rw [hc]

lemma commaIdxs_some (labels : List Label) (skip : List Nat) (i j : Nat)
    (hc : commaBeforeIdx labels skip i = some j) :
    commaIdxs labels skip i = [j] := by
  unfold commaIdxs
  rw [hc]

lemma commaConfs_none (labels : List Label) (scores : List ℚ)
    (skip : List Nat) (i : Nat) (hc : commaBeforeIdx labels skip i = none) :
    commaConfs labels scores skip i = [] := by
  unfold commaConfs
  rw [commaIdxs_none labels skip i hc]
  rfl

lemma commaConfs_some (labels : List Label) (scores : List ℚ)
    (skip : List Nat) (i j : Nat)
    (hc : commaBeforeIdx labels skip i = some j) :
    commaConfs labels scores skip i = [scores.getD j 0] := by
  unfold commaConfs
  rw [commaIdxs_some labels skip i j hc]
  rfl

/-!
The scan invariant.  The accumulator holds the partial amounts most recent
first.  `m` is the position the scan has reached: every constituent index is
unskipped and below `m`, each amount's index list is strictly increasing and
parallel to its confidence list, every constituent carries a QTY, UNIT or
COMMA label (a COMMA one always being followed, inside the same amount, by a
UNIT constituent), and the amounts occupy pairwise disjoint, ordered index
ranges.
-/
structure GoodAcc (labels : List Label) (scores : List ℚ) (skip : List Nat)
    (m : Nat) (acc : List PartialAmount) : Prop where
  shape : ∀ a ∈ acc, a.indices ≠ [] ∧ a.startIndex ∈ a.indices ∧
    a.confs = a.indices.map (fun j => scores.getD j 0) ∧
    List.Pairwise (fun x y => x < y) a.indices
  bounds : ∀ a ∈ acc, ∀ x ∈ a.indices, x ∉ skip ∧ x < m
  labelsOk : ∀ a ∈ acc, ∀ x ∈ a.indices,
    labels.getD x Label.PUNC = Label.QTY ∨
    labels.getD x Label.PUNC = Label.UNIT ∨
    (labels.getD x Label.PUNC = Label.COMMA ∧
      ∃ y ∈ a.indices, x < y ∧ labels.getD y Label.PUNC = Label.UNIT)
  sep : List.Pairwise
    (fun b a => ∀ x ∈ a.indices, ∀ y ∈ b.indices, x < y) acc

/-- The empty accumulator satisfies the invariant. -/
lemma goodAcc_nil {labels : List Label} {scores : List ℚ} {skip : List Nat}
    {m : Nat} : GoodAcc labels scores skip m [] :=
  ⟨by simp, by simp, by simp, List.Pairwise.nil⟩

/-- The invariant is monotone in the position bound. -/
lemma goodAcc_mono {labels : List Label} {scores : List ℚ} {skip : List Nat}
    {m m' : Nat} {acc : List PartialAmount} (hm : m ≤ m')
    (h : GoodAcc labels scores skip m acc) :
    GoodAcc labels scores skip m' acc := by
  refine ⟨h.shape, fun a ha x hx => ?_, h.labelsOk, h.sep⟩
  obtain ⟨h1, h2⟩ := h.bounds a ha x hx
  exact ⟨h1, by omega⟩

/-- Every constituent index already in the accumulator lies strictly below a
comma index found immediately before the current position. -/
lemma lt_of_comma {labels : List Label} {scores : List ℚ} {skip : List Nat}
    {i j : Nat} {acc : List PartialAmount} {a : PartialAmount} {x : Nat}
    (h : GoodAcc labels scores skip i acc) (ha : a ∈ acc) (hx : x ∈ a.indices)
    (hj : commaBeforeIdx labels skip i = some j) : x < j := by
  obtain ⟨hp, hcomma⟩ := commaBeforeIdx_spec labels skip i j hj
  obtain ⟨hxs, hxi⟩ := h.bounds a ha x hx
  have hxj : x ≤ j := le_prevUnskipped skip i j x hp hxs hxi
  have hne : x ≠ j := by
    intro he
    subst he
    rcases h.labelsOk a ha x hx with hQ | hU | ⟨_, y, hy, hxy, _⟩
    · rw [hcomma] at hQ
      exact absurd hQ (by decide)
    · rw [hcomma] at hU
      exact absurd hU (by decide)
    · obtain ⟨hys, hyi⟩ := h.bounds a ha y hy
      have : y ≤ x := le_prevUnskipped skip i x y hp hys hyi
      omega
  omega

/-!
Branch equations for `scanStep`.
-/
lemma scanStep_skip (tokens : List String) (labels : List Label)
    (scores : List ℚ) (skip : List Nat) (acc : List PartialAmount) (i : Nat)
    (hs : i ∈ skip) :
    scanStep tokens labels scores skip acc i = acc := by
  unfold scanStep
  rw [if_pos hs]

lemma scanStep_other (tokens : List String) (labels : List Label)
    (scores : List ℚ) (skip : List Nat) (acc : List PartialAmount) (i : Nat)
    (hs : i ∉ skip) (hq : labels.getD i Label.PUNC ≠ Label.QTY)
    (hu : labels.getD i Label.PUNC ≠ Label.UNIT) :
    scanStep tokens labels scores skip acc i = acc := by
  unfold scanStep
  rw [if_neg hs, if_neg hq, if_neg hu]

lemma scanStep_qty_new (tokens : List String) (labels : List Label)
    (scores : List ℚ) (skip : List Nat) (acc : List PartialAmount) (i : Nat)
    (hs : i ∉ skip) (hq : labels.getD i Label.PUNC = Label.QTY)
    (hd : ¬(tokens.getD i "" = "dozen" ∧
      prevLabelIs labels skip i Label.QTY = true)) :
    scanStep tokens labels scores skip acc i =
      newQtyAmount tokens labels scores skip i :: acc := by
  unfold scanStep
  rw [if_neg hs, if_pos hq, if_neg hd]

lemma scanStep_dozen_nil (tokens : List String) (labels : List Label)
    (scores : List ℚ) (skip : List Nat) (i : Nat)
    (hs : i ∉ skip) (hq : labels.getD i Label.PUNC = Label.QTY)
    (hd : tokens.getD i "" = "dozen" ∧
      prevLabelIs labels skip i Label.QTY = true) :
    scanStep tokens labels scores skip [] i =
      [newQtyAmount tokens labels scores skip i] := by
  unfold scanStep
  rw [if_neg hs, if_pos hq, if_pos hd]

lemma scanStep_dozen_cons (tokens : List String) (labels : List Label)
    (scores : List ℚ) (skip : List Nat) (a : PartialAmount)
    (rest : List PartialAmount) (i : Nat)
    (hs : i ∉ skip) (hq : labels.getD i Label.PUNC = Label.QTY)
    (hd : tokens.getD i "" = "dozen" ∧
      prevLabelIs labels skip i Label.QTY = true) :
    scanStep tokens labels scores skip (a :: rest) i =
      { a with
        quantity := a.quantity ++ " " ++ tokens.getD i ""
        indices := a.indices ++ [i]
        confs := a.confs ++ [scores.getD i 0] } :: rest := by
  unfold scanStep
  rw [if_neg hs, if_pos hq, if_pos hd]

lemma scanStep_unit_nil (tokens : List String) (labels : List Label)
    (scores : List ℚ) (skip : List Nat) (i : Nat)
    (hs : i ∉ skip) (hq : labels.getD i Label.PUNC ≠ Label.QTY)
    (hu : labels.getD i Label.PUNC = Label.UNIT) :
    scanStep tokens labels scores skip [] i =
      [{ quantity := ""
         unitToks := commaTexts labels skip i ++ [tokens.getD i ""]
         indices := commaIdxs labels skip i ++ [i]
         confs := commaConfs labels scores skip i ++ [scores.getD i 0]
         APPROXIMATE := approxFlag tokens labels skip i
         SINGULAR := singularFlag tokens labels skip i
         startIndex := i }] := by
  unfold scanStep
  rw [if_neg hs, if_neg hq, if_pos hu]

lemma scanStep_unit_cons (tokens : List String) (labels : List Label)
    (scores : List ℚ) (skip : List Nat) (a : PartialAmount)
    (rest : List PartialAmount) (i : Nat)
    (hs : i ∉ skip) (hq : labels.getD i Label.PUNC ≠ Label.QTY)
    (hu : labels.getD i Label.PUNC = Label.UNIT) :
    scanStep tokens labels scores skip (a :: rest) i =
      { a with
        unitToks := a.unitToks ++ commaTexts labels skip i ++ [tokens.getD i ""]
        indices := a.indices ++ commaIdxs labels skip i ++ [i]
        confs := a.confs ++ commaConfs labels scores skip i ++ [scores.getD i 0]
        APPROXIMATE := a.APPROXIMATE || approxFlag tokens labels skip i
        SINGULAR := a.SINGULAR || singularFlag tokens labels skip i } :: rest := by
  unfold scanStep
  rw [if_neg hs, if_neg hq, if_pos hu]

/-- Opening a fresh single-constituent amount at an unskipped QTY or UNIT
position preserves the invariant. -/
lemma goodAcc_cons_new {labels : List Label} {scores : List ℚ}
    {skip : List Nat} {i : Nat} {acc : List PartialAmount}
    (h : GoodAcc labels scores skip i acc) (hskip : i ∉ skip)
    (hlab : labels.getD i Label.PUNC = Label.QTY ∨
      labels.getD i Label.PUNC = Label.UNIT)
    (q : String) (uToks : List String) (ap sg : Bool) :
    GoodAcc labels scores skip (i + 1)
      (⟨q, uToks, [i], [scores.getD i 0], ap, sg, i⟩ :: acc) := by
  refine ⟨?_, ?_, ?_, ?_⟩
  · intro b hb
    rcases List.mem_cons.mp hb with rfl | hb'
    · exact ⟨by simp, by simp, by simp, by simp⟩
    · exact h.shape b hb'
  · intro b hb x hx
    rcases List.mem_cons.mp hb with rfl | hb'
    · simp only [List.mem_singleton] at hx
      subst hx
      exact ⟨hskip, Nat.lt_succ_self _⟩
    · obtain ⟨h1, h2⟩ := h.bounds b hb' x hx
      exact ⟨h1, by omega⟩
  · intro b hb x hx
    rcases List.mem_cons.mp hb with rfl | hb'
    · simp only [List.mem_singleton] at hx
      subst hx
      rcases hlab with h1 | h1
      · exact Or.inl h1
      · exact Or.inr (Or.inl h1)
    · exact h.labelsOk b hb' x hx
  · refine List.Pairwise.cons ?_ h.sep
    intro b hb x hx y hy
    simp only [List.mem_singleton] at hy
    subst hy
    exact (h.bounds b hb x hx).2

/-- Appending the current unskipped QTY or UNIT position to the most recent
amount preserves the invariant. -/
lemma goodAcc_extend_head {labels : List Label} {scores : List ℚ}
    {skip : List Nat} {i : Nat} {a : PartialAmount}
    {rest : List PartialAmount}
    (h : GoodAcc labels scores skip i (a :: rest)) (hskip : i ∉ skip)
    (hlab : labels.getD i Label.PUNC = Label.QTY ∨
      labels.getD i Label.PUNC = Label.UNIT)
    (q : String) (uToks : List String) (ap sg : Bool) :
    GoodAcc labels scores skip (i + 1)
      (⟨q, uToks, a.indices ++ [i], a.confs ++ [scores.getD i 0], ap, sg,
        a.startIndex⟩ :: rest) := by
  have hmem : a ∈ a :: rest := List.mem_cons_self a rest
  obtain ⟨hne, hstart, hconfs, hsorted⟩ := h.shape a hmem
  have hbnd : ∀ x ∈ a.indices, x ∉ skip ∧ x < i := h.bounds a hmem
  refine ⟨?_, ?_, ?_, ?_⟩
  · intro b hb
    rcases List.mem_cons.mp hb with rfl | hb'
    · refine ⟨by simp, ?_, ?_, ?_⟩
      · exact List.mem_append_left _ hstart
      · simp [hconfs]
      · rw [List.pairwise_append]
        refine ⟨hsorted, by simp, fun x hx y hy => ?_⟩
        simp only [List.mem_singleton] at hy
        subst hy
        exact (hbnd x hx).2
    · exact h.shape b (List.mem_cons_of_mem a hb')
  · intro b hb x hx
    rcases List.mem_cons.mp hb with rfl | hb'
    · rcases List.mem_append.mp hx with hx' | hx'
      · obtain ⟨h1, h2⟩ := hbnd x hx'
        exact ⟨h1, by omega⟩
      · simp only [List.mem_singleton] at hx'
        subst hx'
        exact ⟨hskip, Nat.lt_succ_self _⟩
    · obtain ⟨h1, h2⟩ := h.bounds b (List.mem_cons_of_mem a hb') x hx
      exact ⟨h1, by omega⟩
  · intro b hb x hx
    rcases List.mem_cons.mp hb with rfl | hb'
    · rcases List.mem_append.mp hx with hx' | hx'
      · rcases h.labelsOk a hmem x hx' with h1 | h1 | ⟨h1, y, hy, hxy, hyU⟩
        · exact Or.inl h1
        · exact Or.inr (Or.inl h1)
        · exact Or.inr (Or.inr ⟨h1, y, List.mem_append_left _ hy, hxy, hyU⟩)
      · simp only [List.mem_singleton] at hx'
        subst hx'
        rcases hlab with h1 | h1
        · exact Or.inl h1
        · exact Or.inr (Or.inl h1)
    · exact h.labelsOk b (List.mem_cons_of_mem a hb') x hx
  · have hsep := h.sep
    rw [List.pairwise_cons] at hsep
    rw [List.pairwise_cons]
    obtain ⟨hhead, hrest⟩ := hsep
    refine ⟨fun b hb x hx y hy => ?_, hrest⟩
    rcases List.mem_append.mp hy with hy' | hy'
    · exact hhead b hb x hx y hy'
    · simp only [List.mem_singleton] at hy'
      subst hy'
      exact (h.bounds b (List.mem_cons_of_mem a hb) x hx).2

/-- Appending a comma constituent and the current unskipped UNIT position to
the most recent amount preserves the invariant. -/
lemma goodAcc_extend_head_comma {labels : List Label} {scores : List ℚ}
    {skip : List Nat} {i j : Nat} {a : PartialAmount}
    {rest : List PartialAmount}
    (h : GoodAcc labels scores skip i (a :: rest)) (hskip : i ∉ skip)
    (hu : labels.getD i Label.PUNC = Label.UNIT)
    (hc : commaBeforeIdx labels skip i = some j)
    (q : String) (uToks : List String) (ap sg : Bool) :
    GoodAcc labels scores skip (i + 1)
      (⟨q, uToks, a.indices ++ [j] ++ [i],
        a.confs ++ [scores.getD j 0] ++ [scores.getD i 0], ap, sg,
        a.startIndex⟩ :: rest) := by
  obtain ⟨hp, hcomma⟩ := commaBeforeIdx_spec labels skip i j hc
  have hji : j < i := prevUnskipped_lt skip i j hp
  have hjs : j ∉ skip := prevUnskipped_not_mem skip i j hp
  have hmem : a ∈ a :: rest := List.mem_cons_self a rest
  obtain ⟨hne, hstart, hconfs, hsorted⟩ := h.shape a hmem
  have hbnd : ∀ x ∈ a.indices, x ∉ skip ∧ x < i := h.bounds a hmem
  have hltj : ∀ x ∈ a.indices, x < j := fun x hx => lt_of_comma h hmem hx hc
  refine ⟨?_, ?_, ?_, ?_⟩
  · intro b hb
    rcases List.mem_cons.mp hb with rfl | hb'
    · refine ⟨by simp, ?_, ?_, ?_⟩
      · exact List.mem_append_left _ (List.mem_append_left _ hstart)
      · simp [hconfs]
      · rw [List.pairwise_append]
        refine ⟨?_, by simp, fun x hx y hy => ?_⟩
        · rw [List.pairwise_append]
          refine ⟨hsorted, by simp, fun x hx y hy => ?_⟩
          simp only [List.mem_singleton] at hy
          subst hy
          exact hltj x hx
        · simp only [List.mem_singleton] at hy
          subst hy
          rcases List.mem_append.mp hx with hx' | hx'
          · exact (hbnd x hx').2
          · simp only [List.mem_singleton] at hx'
            subst hx'
            exact hji
    · exact h.shape b (List.mem_cons_of_mem a hb')
  · intro b hb x hx
    rcases List.mem_cons.mp hb with rfl | hb'
    · rcases List.mem_append.mp hx with hx' | hx'
      · rcases List.mem_append.mp hx' with hx'' | hx''
        · obtain ⟨h1, h2⟩ := hbnd x hx''
          exact ⟨h1, by omega⟩
        · simp only [List.mem_singleton] at hx''
          subst hx''
          exact ⟨hjs, by omega⟩
      · simp only [List.mem_singleton] at hx'
        subst hx'
        exact ⟨hskip, Nat.lt_succ_self _⟩
    · obtain ⟨h1, h2⟩ := h.bounds b (List.mem_cons_of_mem a hb') x hx
      exact ⟨h1, by omega⟩
  · intro b hb x hx
    rcases List.mem_cons.mp hb with rfl | hb'
    · rcases List.mem_append.mp hx with hx' | hx'
      · rcases List.mem_append.mp hx' with hx'' | hx''
        · rcases h.labelsOk a hmem x hx'' with h1 | h1 | ⟨h1, y, hy, hxy, hyU⟩
          · exact Or.inl h1
          · exact Or.inr (Or.inl h1)
          · exact Or.inr (Or.inr ⟨h1, y,
              List.mem_append_left _ (List.mem_append_left _ hy), hxy, hyU⟩)
        · simp only [List.mem_singleton] at hx''
          subst hx''
          refine Or.inr (Or.inr ⟨hcomma, i, ?_, hji, hu⟩)
          exact List.mem_append_right _ (List.mem_singleton.mpr rfl)
      · simp only [List.mem_singleton] at hx'
        subst hx'
        exact Or.inr (Or.inl hu)
    · exact h.labelsOk b (List.mem_cons_of_mem a hb') x hx
  · have hsep := h.sep
    rw [List.pairwise_cons] at hsep
    rw [List.pairwise_cons]
    obtain ⟨hhead, hrest⟩ := hsep
    refine ⟨fun b hb x hx y hy => ?_, hrest⟩
    rcases List.mem_append.mp hy with hy' | hy'
    · rcases List.mem_append.mp hy' with hy'' | hy''
      · exact hhead b hb x hx y hy''
      · simp only [List.mem_singleton] at hy''
        subst hy''
        exact lt_of_comma h (List.mem_cons_of_mem a hb) hx hc
    · simp only [List.mem_singleton] at hy'
      subst hy'
      exact (h.bounds b (List.mem_cons_of_mem a hb) x hx).2

/-- Opening a fresh amount with a comma constituent and the current unskipped
UNIT position, over an empty accumulator, satisfies the invariant. -/
lemma goodAcc_singleton_comma {labels : List Label} {scores : List ℚ}
    {skip : List Nat} {i j : Nat} (hskip : i ∉ skip)
    (hu : labels.getD i Label.PUNC = Label.UNIT)
    (hc : commaBeforeIdx labels skip i = some j)
    (q : String) (uToks : List String) (ap sg : Bool) :
    GoodAcc labels scores skip (i + 1)
      [⟨q, uToks, [j, i], [scores.getD j 0, scores.getD i 0], ap, sg, i⟩] := by
  obtain ⟨hp, hcomma⟩ := commaBeforeIdx_spec labels skip i j hc
  have hji : j < i := prevUnskipped_lt skip i j hp
  have hjs : j ∉ skip := prevUnskipped_not_mem skip i j hp
  refine ⟨?_, ?_, ?_, ?_⟩
  · intro b hb
    rcases List.mem_cons.mp hb with rfl | hb'
    · refine ⟨by simp, by simp, by simp, ?_⟩
      simp [hji]
    · simp at hb'
  · intro b hb x hx
    rcases List.mem_cons.mp hb with rfl | hb'
    · rcases List.mem_cons.mp hx with rfl | hx'
      · exact ⟨hjs, by omega⟩
      · simp only [List.mem_singleton] at hx'
        subst hx'
        exact ⟨hskip, Nat.lt_succ_self _⟩
    · simp at hb'
  · intro b hb x hx
    rcases List.mem_cons.mp hb with rfl | hb'
    · rcases List.mem_cons.mp hx with rfl | hx'
      · refine Or.inr (Or.inr ⟨hcomma, i, ?_, hji, hu⟩)
        simp
      · simp only [List.mem_singleton] at hx'
        subst hx'
        exact Or.inr (Or.inl hu)
    · simp at hb'
  · simp

/-- One scan step at the current position preserves the invariant. -/
lemma goodAcc_step (tokens : List String) (labels : List Label)
    (scores : List ℚ) (skip : List Nat) (acc : List PartialAmount) (i : Nat)
    (h : GoodAcc labels scores skip i acc) :
    GoodAcc labels scores skip (i + 1)
      (scanStep tokens labels scores skip acc i) := by
  by_cases hs : i ∈ skip
  · rw [scanStep_skip tokens labels scores skip acc i hs]
    exact goodAcc_mono (Nat.le_succ i) h
  by_cases hq : labels.getD i Label.PUNC = Label.QTY
  · by_cases hd : tokens.getD i "" = "dozen" ∧
        prevLabelIs labels skip i Label.QTY = true
    · cases acc with
      | nil =>
        rw [scanStep_dozen_nil tokens labels scores skip i hs hq hd]
        exact goodAcc_cons_new goodAcc_nil hs (Or.inl hq) _ _ _ _
      | cons a rest =>
        rw [scanStep_dozen_cons tokens labels scores skip a rest i hs hq hd]
        exact goodAcc_extend_head h hs (Or.inl hq) _ _ _ _
    · rw [scanStep_qty_new tokens labels scores skip acc i hs hq hd]
      exact goodAcc_cons_new h hs (Or.inl hq) _ _ _ _
  by_cases hu : labels.getD i Label.PUNC = Label.UNIT
  · cases acc with
    | nil =>
      rw [scanStep_unit_nil tokens labels scores skip i hs hq hu]
      cases hc : commaBeforeIdx labels skip i with
      | none =>
        rw [commaIdxs_none labels skip i hc,
          commaConfs_none labels scores skip i hc]
        simp only [List.nil_append]
        exact goodAcc_cons_new goodAcc_nil hs (Or.inr hu) _ _ _ _
      | some j =>
        rw [commaIdxs_some labels skip i j hc,
          commaConfs_some labels scores skip i j hc]
        simp only [List.singleton_append]
        exact goodAcc_singleton_comma hs hu hc _ _ _ _
    | cons a rest =>
      rw [scanStep_unit_cons tokens labels scores skip a rest i hs hq hu]
      cases hc : commaBeforeIdx labels skip i with
      | none =>
        rw [commaIdxs_none labels skip i hc,
          commaConfs_none labels scores skip i hc]
        simp only [List.append_nil]
        exact goodAcc_extend_head h hs (Or.inr hu) _ _ _ _
      | some j =>
        rw [commaIdxs_some labels skip i j hc,
          commaConfs_some labels scores skip i j hc]
        exact goodAcc_extend_head_comma h hs hu hc _ _ _ _
  · rw [scanStep_other tokens labels scores skip acc i hs hq hu]
    exact goodAcc_mono (Nat.le_succ i) h

/-- Scanning any strictly increasing list of positions not below the current
bound preserves the invariant at some final bound. -/
lemma goodAcc_scanIndices (tokens : List String) (labels : List Label)
    (scores : List ℚ) (skip : List Nat) :
    ∀ (L : List Nat) (m : Nat) (acc : List PartialAmount),
      List.Pairwise (fun x y => x < y) L → (∀ i ∈ L, m ≤ i) →
      GoodAcc labels scores skip m acc →
      ∃ M, GoodAcc labels scores skip M
        (scanIndices tokens labels scores skip L acc)
  | [], m, acc, _, _, h => ⟨m, h⟩
  | i :: rest, m, acc, hL, hm, h => by
    rw [List.pairwise_cons] at hL
    have h1 : GoodAcc labels scores skip i acc :=
      goodAcc_mono (hm i (List.mem_cons_self i rest)) h
    have h2 := goodAcc_step tokens labels scores skip acc i h1
    exact goodAcc_scanIndices tokens labels scores skip rest (i + 1)
      (scanStep tokens labels scores skip acc i) hL.2
      (fun x hx => hL.1 x hx) h2

/-- The invariant holds of the full scan (stated over the reverse of
`fallbackScan`, which is the accumulator in its construction order). -/
lemma fallbackScan_good (tokens : List String) (labels : List Label)
    (scores : List ℚ) (skip : List Nat) :
    ∃ M, GoodAcc labels scores skip M
      ((fallbackScan tokens labels scores skip).reverse) := by
  have h := goodAcc_scanIndices tokens labels scores skip
    (List.range tokens.length) 0 [] (List.pairwise_lt_range _)
    (fun i _ => Nat.zero_le i) goodAcc_nil
  simpa [fallbackScan, List.reverse_reverse] using h

/-- The zip-based count of correct sentences equals the count of indices at
which the two equal-length lists agree. -/
lemma correct_sentences_eq_range :
    ∀ (ps ts : List (List String)), ps.length = ts.length →
      correct_sentences ps ts =
        ((List.range ps.length).filter
          (fun i => decide (ps.getD i [] = ts.getD i []))).length
  | [], [], _ => rfl
  | [], _ :: _, h => by simp at h
  | _ :: _, [], h => by simp at h
  | p :: ps, t :: ts, h => by
    have hlen : ps.length = ts.length := by simpa using h
    have ih := correct_sentences_eq_range ps ts hlen
    unfold correct_sentences at ih ⊢
    simp only [List.zip_cons_cons, List.filter_cons, List.length_cons,
      List.range_succ_eq_map, List.getD_cons_zero, List.getD_cons_succ,
      List.filter_map, List.length_map, Function.comp_def]
    by_cases hpt : p = t
    · simp [hpt, ih]
    · simp [hpt, ih]

/-!
Model validation: the embedding reproduces the remaining concrete fixtures of
tests/postprocess/test_fallback_pattern.py not already covered by a claim.
-/

/-- The model reproduces test_no_quantity: tokens
["1","green",",","large","pepper"] yield one group with quantity "1" and
unit ", large". -/
theorem model_matches_test_no_quantity :
    fallback_pattern ["1", "green", ",", "large", "pepper"]
      [Label.QTY, Label.NAME, Label.COMMA, Label.UNIT, Label.NAME]
      [0, 0, 0, 0, 0] [] = [⟨"1", ", large", 0, false, false⟩] := by
  decide

/-- The model reproduces test_singular_and_approximate: tokens
["2","bananas",",","each","about","4","ounce"] yield a bare quantity group
and a singular, approximate group. -/
theorem model_matches_test_singular_and_approximate :
    fallback_pattern ["2", "bananas", ",", "each", "about", "4", "ounce"]
      [Label.QTY, Label.NAME, Label.COMMA, Label.COMMENT, Label.COMMENT,
       Label.QTY, Label.UNIT] [0, 0, 0, 0, 0, 0, 0] [] =
      [⟨"2", "", 0, false, false⟩, ⟨"4", "ounces", 0, true, true⟩] := by
  decide

/-!
The claims.
-/

/-- C1: for tokens ["2","dozen","bananas",",","each","about","4","ounce"]
with labels [QTY,QTY,NAME,COMMA,COMMENT,COMMENT,QTY,UNIT] and an empty skip
set, the matcher returns exactly two groups in order: first
quantity "2 dozen", unit "", with no flags set (the QTY token "dozen" is
joined into the preceding numeric quantity string rather than emitted as a
separate group), then quantity "4", unit "ounces", with singular and
approximate set. -/
theorem fallback_dozen_scenario :
    fallback_pattern ["2", "dozen", "bananas", ",", "each", "about", "4",
      "ounce"]
      [Label.QTY, Label.QTY, Label.NAME, Label.COMMA, Label.COMMENT,
       Label.COMMENT, Label.QTY, Label.UNIT]
      [0, 0, 0, 0, 0, 0, 0, 0] [] =
      [⟨"2 dozen", "", 0, false, false⟩, ⟨"4", "ounces", 0, true, true⟩] := by
  decide

/-- C2: every emitted amount group's confidence equals the minimum of the
confidence scores of its constituent tokens (quantity tokens, unit tokens and
prepended comma modifier tokens, recorded in `indices`); scores of tokens
outside the group play no part, the confidence being a function of the
group's own constituent scores alone. -/
theorem fallback_confidence_min (tokens : List String) (labels : List Label)
    (scores : List ℚ) (skip : List Nat) (a : PartialAmount)
    (ha : a ∈ fallbackScan tokens labels scores skip) :
    (finalize a).confidence ∈ a.indices.map (fun j => scores.getD j 0) ∧
    ∀ c ∈ a.indices.map (fun j => scores.getD j 0),
      (finalize a).confidence ≤ c := by
  obtain ⟨M, hg⟩ := fallbackScan_good tokens labels scores skip
  have ha' : a ∈ (fallbackScan tokens labels scores skip).reverse :=
    List.mem_reverse.mpr ha
  obtain ⟨hne, _, hconfs, _⟩ := hg.shape a ha'
  constructor
  · show minList a.confs ∈ a.indices.map (fun j => scores.getD j 0)
    rw [hconfs]
    refine minList_mem _ ?_
    simpa using hne
  · intro c hc
    show minList a.confs ≤ c
    rw [hconfs]
    exact minList_le _ c hc

/-- Witness for C2 at a concrete input: in "2 cup" with scores [1, 0] the
single group's confidence is at most the quantity token's score 1. -/
theorem fallback_confidence_min_witness :
    (finalize (⟨"2", ["cup"], [0, 1], [1, 0], false, false, 0⟩ :
      PartialAmount)).confidence ≤ (1 : ℚ) :=
  (fallback_confidence_min ["2", "cup"] [Label.QTY, Label.UNIT] [1, 0] []
    ⟨"2", ["cup"], [0, 1], [1, 0], false, false, 0⟩ (by decide)).2 1 (by decide)

/-- C3: for every input, every output group's constituent token indices are
drawn only from indices absent from the caller-supplied skip set, and the
index sets consumed by distinct output groups are pairwise disjoint; in
particular, with skip = [0,1,2,3] over
["1","28","ounce","can","or","400","g","chickpeas"], the only emitted group
is quantity "400", unit "g". -/
theorem fallback_skip_disjoint (tokens : List String) (labels : List Label)
    (scores : List ℚ) (skip : List Nat) :
    (∀ a ∈ fallbackScan tokens labels scores skip, ∀ x ∈ a.indices,
      x ∉ skip) ∧
    List.Pairwise (fun A B => ∀ x ∈ A.indices, ∀ y ∈ B.indices, x ≠ y)
      (fallbackScan tokens labels scores skip) ∧
    fallback_pattern ["1", "28", "ounce", "can", "or", "400", "g",
      "chickpeas"]
      [Label.QTY, Label.QTY, Label.UNIT, Label.UNIT, Label.COMMENT,
       Label.QTY, Label.UNIT, Label.NAME]
      [0, 0, 0, 0, 0, 0, 0, 0] [0, 1, 2, 3] =
      [⟨"400", "g", 0, false, false⟩] := by
  obtain ⟨M, hg⟩ := fallbackScan_good tokens labels scores skip
  refine ⟨?_, ?_, by decide⟩
  · intro a ha x hx
    exact (hg.bounds a (List.mem_reverse.mpr ha) x hx).1
  · have hlt := List.pairwise_reverse.mp hg.sep
    exact hlt.imp (fun hab x hx y hy => Nat.ne_of_lt (hab x hx y hy))

/-- Witness for C3 at a concrete input: the indices 5 and 6 consumed by the
"400 g" group avoid the skip set [0,1,2,3]. -/
theorem fallback_skip_disjoint_witness :
    (5 : Nat) ∉ ([0, 1, 2, 3] : List Nat) :=
  (fallback_skip_disjoint ["1", "28", "ounce", "can", "or", "400", "g",
    "chickpeas"]
    [Label.QTY, Label.QTY, Label.UNIT, Label.UNIT, Label.COMMENT, Label.QTY,
     Label.UNIT, Label.NAME]
    [0, 0, 0, 0, 0, 0, 0, 0] [0, 1, 2, 3]).1
    ⟨"400", ["g"], [5, 6], [0, 0], false, false, 5⟩ (by decide) 5 (by decide)

/-- C4: when a group's quantity indicates a count greater than one, singular
unit forms are normalized to plural forms ("handful" to "handfuls", "ounce"
to "ounces", "cup" to "cups"), while quantity "1" keeps the singular form; in
particular ["3","large","handful","cherry","tomatoes"] with labels
[QTY,UNIT,UNIT,NAME,NAME] yields exactly one group with quantity "3" and
unit "large handfuls". -/
theorem fallback_pluralisation :
    fallback_pattern ["3", "large", "handful", "cherry", "tomatoes"]
      [Label.QTY, Label.UNIT, Label.UNIT, Label.NAME, Label.NAME]
      [0, 0, 0, 0, 0] [] = [⟨"3", "large handfuls", 0, false, false⟩] ∧
    fallback_pattern ["1", "ounce"] [Label.QTY, Label.UNIT] [0, 0] [] =
      [⟨"1", "ounce", 0, false, false⟩] ∧
    pluralise "handful" = "handfuls" ∧ pluralise "ounce" = "ounces" ∧
    pluralise "cup" = "cups" := by
  exact ⟨by decide, by decide, rfl, rfl, rfl⟩

/-- C5: a COMMENT token recognized as an approximation marker immediately
preceding a quantity cluster (not separated by a NAME token, which ends the
comment run) makes the emitted group approximate; in particular
["About","2","cup","flour"] with labels [COMMENT,QTY,UNIT,NAME] yields
exactly one group with quantity "2", unit "cups" and the approximate flag
set, and in general any recognized marker in the COMMENT token immediately
preceding the position turns the approximation flag on. -/
theorem fallback_approximate :
    fallback_pattern ["About", "2", "cup", "flour"]
      [Label.COMMENT, Label.QTY, Label.UNIT, Label.NAME] [0, 0, 0, 0] [] =
      [⟨"2", "cups", 0, true, false⟩] ∧
    ∀ (tokens : List String) (labels : List Label) (skip : List Nat)
      (i j : Nat),
      prevUnskipped skip i = some j →
      labels.getD j Label.PUNC = Label.COMMENT →
      APPROXIMATE_TOKENS.contains (lowerStr (tokens.getD j "")) = true →
      approxFlag tokens labels skip i = true := by
  constructor
  · decide
  · intro tokens labels skip i j hp hcm htok
    have hrun := commentRun_of_comment tokens labels skip i j hp hcm
    unfold approxFlag
    rw [hrun]
    simp only [List.map_cons, List.any_cons, htok, Bool.true_or]

/-- Witness for C5 at a concrete input: in "About 2 cup flour" the
approximation flag is on at the quantity position 1. -/
theorem fallback_approximate_witness :
    approxFlag ["About", "2", "cup", "flour"]
      [Label.COMMENT, Label.QTY, Label.UNIT, Label.NAME] [] 1 = true :=
  fallback_approximate.2 ["About", "2", "cup", "flour"]
    [Label.COMMENT, Label.QTY, Label.UNIT, Label.NAME] [] 1 0
    (by decide) (by decide) (by decide)

/-- C6: a lone UNIT token with no quantity token yields a group whose
quantity is the empty string; in particular ["bunch","of","basil","leaves"]
with labels [UNIT,COMMENT,NAME,NAME] yields exactly one group with
quantity "" and unit "bunch", the adjacent COMMENT token being discarded
rather than included in the unit string. -/
theorem fallback_lone_unit :
    fallback_pattern ["bunch", "of", "basil", "leaves"]
      [Label.UNIT, Label.COMMENT, Label.NAME, Label.NAME] [0, 0, 0, 0] [] =
      [⟨"", "bunch", 0, false, false⟩] := by
  decide

/-- C7: for every input, the ordered sequence of output amount groups
preserves the left-to-right sentence order of each group's governing token
(`startIndex`: the leading quantity token index, or the unit token index when
the quantity is absent): earlier groups in the returned sequence have
strictly smaller governing indices.  The returned `IngredientAmount`
sequence is the elementwise image of this sequence under `finalize`, so its
order is the same. -/
theorem fallback_ordering (tokens : List String) (labels : List Label)
    (scores : List ℚ) (skip : List Nat) :
    List.Pairwise (fun A B => A.startIndex < B.startIndex)
      (fallbackScan tokens labels scores skip) := by
  obtain ⟨M, hg⟩ := fallbackScan_good tokens labels scores skip
  have hlt := List.pairwise_reverse.mp hg.sep
  refine List.Pairwise.imp_of_mem ?_ hlt
  intro A B hA hB hAB
  have hAs := (hg.shape A (List.mem_reverse.mpr hA)).2.1
  have hBs := (hg.shape B (List.mem_reverse.mpr hB)).2.1
  exact hAB A.startIndex hAs B.startIndex hBs

/-- C8: malformed input — the tokens, labels and scores sequences not all of
equal length, or the skip set containing an index outside the valid range of
token indices — makes the checked matcher raise an error immediately; no
(possibly incomplete) result is returned. -/
theorem fallback_checked_rejects (tokens : List String) (labels : List Label)
    (scores : List ℚ) (skip : List Nat)
    (h : ¬(tokens.length = labels.length ∧ labels.length = scores.length ∧
      ∀ x ∈ skip, x < tokens.length)) :
    (∃ e, fallback_pattern_checked tokens labels scores skip =
      Except.error e) ∧
    ∀ r, fallback_pattern_checked tokens labels scores skip ≠
      Except.ok r := by
  unfold fallback_pattern_checked
  rw [if_neg h]
  exact ⟨⟨_, rfl⟩, fun r hr => by cases hr⟩

/-- Witness for C8 at a concrete malformed input: one token with zero labels
is rejected, never returned as a success. -/
theorem fallback_checked_rejects_witness :
    fallback_pattern_checked ["a"] [] [] [] ≠ Except.ok [] :=
  (fallback_checked_rejects ["a"] [] [] [] (by decide)).2 []

/-- C9: in `evaluate`, the divisor of the sentence-accuracy division is
non-zero exactly when the predictions list is non-empty; for every non-empty
predictions list paired with an equal-length truths list the returned
sentence accuracy equals the number of indices at which the predicted and
true label sequences agree, divided by the total number of sentences; and
for an empty predictions list no accuracy value is returned (the division
fails). -/
theorem evaluate_division_safe (predictions truths : List (List String)) :
    ((predictions.length : ℚ) ≠ 0 ↔ predictions ≠ []) ∧
    (predictions = [] →
      evaluate_sentence_accuracy predictions truths = none) ∧
    (predictions ≠ [] → predictions.length = truths.length →
      evaluate_sentence_accuracy predictions truths =
        some ((((List.range predictions.length).filter
          (fun i => decide (predictions.getD i [] = truths.getD i []))).length :
            ℚ) / (predictions.length : ℚ))) := by
  refine ⟨?_, ?_, ?_⟩
  · simp [List.length_eq_zero]
  · intro h
    subst h
    rfl
  · intro hne hlen
    unfold evaluate_sentence_accuracy
    rw [if_neg (by simpa [List.length_eq_zero] using hne),
      correct_sentences_eq_range predictions truths hlen]

/-- Witness for C9 at a concrete input: two sentences, one predicted
correctly, giving accuracy one half. -/
theorem evaluate_division_safe_witness :
    evaluate_sentence_accuracy [["QTY"], ["UNIT"]] [["QTY"], ["NAME"]] =
      some ((1 : ℚ) / 2) :=
  ((evaluate_division_safe [["QTY"], ["UNIT"]] [["QTY"], ["NAME"]]).2.2
    (by decide) rfl).trans rfl

/-- C10: `select_preprocessor` errors exactly when the language is not among
the supported languages; when "en" is supported it returns the English
PreProcessor class for "en"; and every supported language other than "en"
falls through the match statement, returning no preprocessor class at
all. -/
theorem select_preprocessor_spec (SUPPORTED_LANGUAGES : List String)
    (lang : String) :
    ((∃ e, select_preprocessor SUPPORTED_LANGUAGES lang = Except.error e) ↔
      lang ∉ SUPPORTED_LANGUAGES) ∧
    ("en" ∈ SUPPORTED_LANGUAGES →
      select_preprocessor SUPPORTED_LANGUAGES "en" =
        Except.ok (some PreProcessorClass.en)) ∧
    (lang ∈ SUPPORTED_LANGUAGES → lang ≠ "en" →
      select_preprocessor SUPPORTED_LANGUAGES lang = Except.ok none) := by
  refine ⟨⟨?_, ?_⟩, ?_, ?_⟩
  · rintro ⟨e, he⟩
    by_cases hm : lang ∈ SUPPORTED_LANGUAGES
    · exfalso
      unfold select_preprocessor at he
      rw [if_neg (not_not_intro hm)] at he
      by_cases hen : lang = "en"
      · rw [if_pos hen] at he
        cases he
      · rw [if_neg hen] at he
        cases he
    · exact hm
  · intro hm
    unfold select_preprocessor
    rw [if_pos hm]
    exact ⟨_, rfl⟩
  · intro hm
    unfold select_preprocessor
    rw [if_neg (not_not_intro hm), if_pos rfl]
  · intro hm hen
    unfold select_preprocessor
    rw [if_neg (not_not_intro hm), if_neg hen]

/-- Witness for C10 at a concrete input: with supported languages
["en", "de"], the supported language "de" yields no preprocessor class. -/
theorem select_preprocessor_spec_witness :
    select_preprocessor ["en", "de"] "de" = Except.ok none :=
  (select_preprocessor_spec ["en", "de"] "de").2.2 (by decide) (by decide)

end IngredientParser
